import Mathlib

/-!
# Wallet ledger state-transition logic — shallow embedding

A shallow embedding of the cryptocurrency ledger core found in
`src/examples/cryptocurrency-advanced/backend/src/schema.rs` and
`src/examples/cryptocurrency-advanced/backend/src/transactions.rs`,
together with theorems settling the specification's claims.

Modelling decisions:

* Addresses, transaction hashes and history digests are `Nat`.
* `u64` arithmetic is modelled with explicit wraparound modulo `2^64`
  (`wadd`, `wsub`), matching release-mode Rust semantics of the unchecked
  `+` / `-` used by the source.
* The merkledb maps (`wallets`, `approval_transactions`, and the
  `wallet_history` group of proof lists) are modelled as association
  lists with first-match lookup and in-place replacement on put; a
  missing history list reads as the empty list, as a fresh
  `ProofListIndex` in a `Group` does.
* `object_hash` of a history list is modelled by a deterministic,
  order-sensitive digest `objectHash` (the spec only requires a
  deterministic pure function of the entry sequence).
* The `rand::thread_rng` draw inside `TxSendApprove::new` is modelled as
  an explicitly passed `nonce` argument, following the spec's design
  note that the randomness must be treated as opaque data.
-/

namespace CryptoLedger

/-- Fixed-size opaque address (`CallerAddress` in the source). -/
abbrev Addr := Nat

/-- Transaction hash / operation identifier (`Hash` in the source). -/
abbrev TxHash := Nat

/-- `2^64`, the size of the `u64` value space. -/
def U64SIZE : Nat := 2 ^ 64

/-- Wrapping `u64` addition, release-mode semantics of `a + b` in Rust. -/
def wadd (a b : Nat) : Nat := (a + b) % U64SIZE

/-- Wrapping `u64` subtraction, release-mode semantics of `a - b` in Rust. -/
def wsub (a b : Nat) : Nat := (a + (U64SIZE - b % U64SIZE)) % U64SIZE

/-- Modelled from the spec: `INITIAL_BALANCE` lives in the crate root,
which is not part of the provided sources; the spec treats it as a fixed
configuration constant and its scenarios use accounts created with
balance 100. -/
def INITIAL_BALANCE : Nat := 100

/-- Deterministic, order-sensitive digest over a history list, modelling
`object_hash` of the `ProofListIndex` (spec §4.2 only requires a pure
deterministic function of the ordered entry sequence). -/
def objectHash (l : List TxHash) : Nat :=
  l.foldl (fun h x => h * U64SIZE + x % U64SIZE + 1) 0

/-- Modelled from the spec: the `Wallet` record of `wallet.rs`, which is
not among the provided sources.  Field names and the constructor-argument
order follow the uses in `schema.rs` (`Wallet::new(key, name,
INITIAL_BALANCE, 0, history.len(), &history_hash)`, `wallet.owner`,
`wallet.balance`, `wallet.balance_freezed`).  `transactions.rs` also
refers to the frozen amount as `freezed_balance`; both names denote the
spec's single `balance_frozen` field and are modelled as the one field
`balance_freezed`. -/
structure Wallet where
  owner : Addr
  name : String
  balance : Nat
  balance_freezed : Nat
  history_len : Nat
  history_hash : Nat
deriving Repr, DecidableEq

/-- Modelled from the spec: `Wallet::new` as used by
`SchemaImpl::create_wallet`. -/
def Wallet.new (owner : Addr) (name : String) (balance balance_freezed
    history_len history_hash : Nat) : Wallet :=
  ⟨owner, name, balance, balance_freezed, history_len, history_hash⟩

/-- Modelled from the spec: `Wallet::set_balance` of the missing
`wallet.rs`.  Per spec §3, every balance mutation increases
`history_length` by exactly 1 and installs the recomputed digest in the
same step, leaving the other fields unchanged. -/
def Wallet.set_balance (w : Wallet) (balance : Nat) (history_hash : Nat) :
    Wallet :=
  { w with balance := balance, history_len := w.history_len + 1,
           history_hash := history_hash }

/-- Modelled from the spec: `Wallet.set_balance_freezed` of the missing
`wallet.rs`, the frozen-balance analogue of `set_balance`. -/
def Wallet.set_balance_freezed (w : Wallet) (balance_freezed : Nat)
    (history_hash : Nat) : Wallet :=
  { w with balance_freezed := balance_freezed,
           history_len := w.history_len + 1,
           history_hash := history_hash }

/-- The stored approval-transaction record (`TxSendApprove` in
`transactions.rs`). -/
structure TxSendApprove where
  to_ : Addr
  approver : Addr
  amount : Nat
  seed : Nat
deriving Repr, DecidableEq

/-- `TxSendApprove::new`: the source draws `seed` from
`rand::thread_rng`; the draw is modelled as the explicit `rngSeed`
argument. -/
def TxSendApprove.new (to_ : Addr) (amount : Nat) (approver : Addr)
    (rngSeed : Nat) : TxSendApprove :=
  ⟨to_, approver, amount, rngSeed % U64SIZE⟩

/-- Error codes of `transactions.rs`. -/
inductive Error where
  | WalletAlreadyExists
  | SenderNotFound
  | ReceiverNotFound
  | ApproverNotFound
  | InsufficientCurrencyAmount
  | SenderSameAsReceiver
deriving Repr, DecidableEq

/-- First-match lookup in an association list (merkledb map `get`). -/
def mapGet {α β : Type} [DecidableEq α] (k : α) : List (α × β) → Option β
  | [] => none
  | (k', v) :: rest => if k = k' then some v else mapGet k rest

/-- Insert-or-replace in an association list (merkledb map `put`). -/
def mapPut {α β : Type} [DecidableEq α] (k : α) (v : β) :
    List (α × β) → List (α × β)
  | [] => [(k, v)]
  | (k', v') :: rest =>
      if k = k' then (k, v) :: rest else (k', v') :: mapPut k v rest

/-- The schema state: the `wallets` and `approval_transactions` proof
maps of `Schema`, and the `wallet_history` group of proof lists of
`SchemaImpl`. -/
structure State where
  wallets : List (Addr × Wallet)
  approval_transactions : List (TxHash × TxSendApprove)
  wallet_history : List (Addr × List TxHash)
deriving Repr, DecidableEq

/-- The fresh (genesis) schema state. -/
def initState : State := ⟨[], [], []⟩

/-- `SchemaImpl::wallet`: lookup in the `wallets` map. -/
def State.wallet (s : State) (address : Addr) : Option Wallet :=
  mapGet address s.wallets

/-- `self.wallet_history.get(&key)`: a missing list reads empty. -/
def State.history (s : State) (key : Addr) : List TxHash :=
  (mapGet key s.wallet_history).getD []

/-- `SchemaImpl::increase_wallet_balance`: push `transaction` onto the
wallet's history, recompute the digest, store the wallet with balance
`balance + amount` (wrapping), and put it back under `wallet.owner`. -/
def State.increase_wallet_balance (s : State) (wallet : Wallet)
    (amount : Nat) (transaction : TxHash) : State :=
  let history := s.history wallet.owner ++ [transaction]
  let history_hash := objectHash history
  let balance := wallet.balance
  let wallet' := wallet.set_balance (wadd balance amount) history_hash
  { s with wallets := mapPut wallet'.owner wallet' s.wallets,
           wallet_history := mapPut wallet.owner history s.wallet_history }

/-- `SchemaImpl::decrease_wallet_balance`: as `increase_wallet_balance`
with balance `balance - amount` (wrapping). -/
def State.decrease_wallet_balance (s : State) (wallet : Wallet)
    (amount : Nat) (transaction : TxHash) : State :=
  let history := s.history wallet.owner ++ [transaction]
  let history_hash := objectHash history
  let balance := wallet.balance
  let wallet' := wallet.set_balance (wsub balance amount) history_hash
  { s with wallets := mapPut wallet'.owner wallet' s.wallets,
           wallet_history := mapPut wallet.owner history s.wallet_history }

/-- `SchemaImpl::create_wallet`: push the first history entry, and store
`Wallet::new(key, name, INITIAL_BALANCE, 0, history.len(),
&history_hash)` under `key`. -/
def State.create_wallet (s : State) (key : Addr) (name : String)
    (transaction : TxHash) : State :=
  let history := s.history key ++ [transaction]
  let history_hash := objectHash history
  let wallet := Wallet.new key name INITIAL_BALANCE 0 history.length
    history_hash
  { s with wallets := mapPut key wallet s.wallets,
           wallet_history := mapPut key history s.wallet_history }

/-- `SchemaImpl::change_wallet_balance_freezed`: push `transaction` onto
the history, recompute the digest, store the wallet with frozen balance
`balance_freezed + amount` (wrapping). -/
def State.change_wallet_balance_freezed (s : State) (wallet : Wallet)
    (amount : Nat) (transaction : TxHash) : State :=
  let history := s.history wallet.owner ++ [transaction]
  let history_hash_increase := objectHash history
  let balance_freezed := wallet.balance_freezed
  let wallet' := wallet.set_balance_freezed (wadd balance_freezed amount)
    history_hash_increase
  { s with wallets := mapPut wallet'.owner wallet' s.wallets,
           wallet_history := mapPut wallet.owner history s.wallet_history }

/-- `SchemaImpl::create_approve_transaction`: freeze the amount on the
sender's wallet, then store `TxSendApprove::new(to, amount, approver)`
(whose `seed` is the fresh random draw `nonce`) under `tx_hash`. -/
def State.create_approve_transaction (s : State) (wallet : Wallet)
    (amount : Nat) (to_ approver : Addr) (tx_hash : TxHash) (nonce : Nat) :
    State :=
  let s1 := s.change_wallet_balance_freezed wallet amount tx_hash
  { s1 with approval_transactions :=
      (mapPut tx_hash (TxSendApprove.new to_ amount approver nonce)
        s1.approval_transactions) }

/-- `CryptocurrencyInterface::transfer`.  The result pairs the error (if
any) with the state as of the return point; all error returns happen
before any mutation. -/
def transfer (s : State) (caller to_ : Addr) (amount seed : Nat)
    (tx_hash : TxHash) : Option Error × State :=
  if caller = to_ then (some .SenderSameAsReceiver, s)
  else
    match s.wallet caller with
    | none => (some .SenderNotFound, s)
    | some sender =>
      match s.wallet to_ with
      | none => (some .ReceiverNotFound, s)
      | some receiver =>
        if wsub sender.balance sender.balance_freezed < amount then
          (some .InsufficientCurrencyAmount, s)
        else
          (none, (s.decrease_wallet_balance sender amount
            tx_hash).increase_wallet_balance receiver amount tx_hash)

/-- `CryptocurrencyInterface::issue`. -/
def issue (s : State) (caller : Addr) (amount seed : Nat)
    (tx_hash : TxHash) : Option Error × State :=
  match s.wallet caller with
  | some wallet => (none, s.increase_wallet_balance wallet amount tx_hash)
  | none => (some .ReceiverNotFound, s)

/-- `CryptocurrencyInterface::create_wallet`. -/
def create_wallet_tx (s : State) (caller : Addr) (name : String)
    (tx_hash : TxHash) : Option Error × State :=
  match s.wallet caller with
  | none => (none, s.create_wallet caller name tx_hash)
  | some _ => (some .WalletAlreadyExists, s)

/-- `CryptocurrencyInterface::tx_send_approve`. -/
def tx_send_approve (s : State) (caller to_ approver : Addr)
    (amount seed : Nat) (nonce : Nat) (tx_hash : TxHash) :
    Option Error × State :=
  if caller = to_ then (some .SenderSameAsReceiver, s)
  else
    match s.wallet caller with
    | none => (some .SenderNotFound, s)
    | some sender_wallet =>
      match s.wallet to_ with
      | none => (some .ReceiverNotFound, s)
      | some _receiver_wallet =>
        match s.wallet approver with
        | none => (some .ApproverNotFound, s)
        | some _approver_wallet =>
          if wsub sender_wallet.balance sender_wallet.balance_freezed
              < amount then
            (some .InsufficientCurrencyAmount, s)
          else
            (none, s.create_approve_transaction sender_wallet amount to_
              approver tx_hash nonce)

/-- One dispatched operation: the payload fields of the corresponding
transaction, the resolved caller, the assigned transaction hash, and —
for `sendApprove` — the `thread_rng` draw made inside the handler. -/
inductive Op where
  | transferOp (caller to_ : Addr) (amount seed : Nat) (tx_hash : TxHash)
  | issueOp (caller : Addr) (amount seed : Nat) (tx_hash : TxHash)
  | createWalletOp (caller : Addr) (name : String) (tx_hash : TxHash)
  | sendApproveOp (caller to_ approver : Addr) (amount seed : Nat)
      (nonce : Nat) (tx_hash : TxHash)
deriving Repr, DecidableEq

/-- The dispatcher: route an operation to its handler. -/
def applyOp : Op → State → Option Error × State
  | .transferOp caller to_ amount seed tx_hash, s =>
      transfer s caller to_ amount seed tx_hash
  | .issueOp caller amount seed tx_hash, s =>
      issue s caller amount seed tx_hash
  | .createWalletOp caller name tx_hash, s =>
      create_wallet_tx s caller name tx_hash
  | .sendApproveOp caller to_ approver amount seed nonce tx_hash, s =>
      tx_send_approve s caller to_ approver amount seed nonce tx_hash

/-- Run a sequence of operations, keeping only the final state. -/
def runOps : List Op → State → State
  | [], s => s
  | o :: rest, s => runOps rest (applyOp o s).2

/-- Run a sequence of operations, collecting each handler's outcome. -/
def runErrs : List Op → State → List (Option Error)
  | [], _ => []
  | o :: rest, s => (applyOp o s).1 :: runErrs rest (applyOp o s).2

/-- Reachability from the fresh store by arbitrary (successful or
failed) invocations of the four handlers. -/
inductive Reachable : State → Prop where
  | init : Reachable initState
  | step {s : State} (o : Op) : Reachable s → Reachable (applyOp o s).2

/-! ## Association-list map lemmas -/

theorem mapGet_mapPut_self {α β : Type} [DecidableEq α] (k : α) (v : β)
    (l : List (α × β)) : mapGet k (mapPut k v l) = some v := by
  induction l with
  | nil => simp [mapGet, mapPut]
  | cons p rest ih =>
    obtain ⟨k', v'⟩ := p
    by_cases h : k = k' <;> simp [mapGet, mapPut, h, ih]

theorem mapGet_mapPut_ne {α β : Type} [DecidableEq α] {k k' : α}
    (h : k ≠ k') (v : β) (l : List (α × β)) :
    mapGet k (mapPut k' v l) = mapGet k l := by
  induction l with
  | nil => simp [mapGet, mapPut, h]
  | cons p rest ih =>
    obtain ⟨ka, va⟩ := p
    by_cases h1 : k' = ka
    · subst h1
      simp [mapGet, mapPut, h]
    · by_cases h2 : k = ka <;> simp [mapGet, mapPut, h1, h2, ih]

theorem mapGet_mapPut_cases {α β : Type} [DecidableEq α] {k k' : α}
    {v w : β} {l : List (α × β)}
    (h : mapGet k (mapPut k' v l) = some w) :
    (k = k' ∧ w = v) ∨ (k ≠ k' ∧ mapGet k l = some w) := by
  by_cases hk : k = k'
  · subst hk
    rw [mapGet_mapPut_self] at h
    exact Or.inl ⟨rfl, (Option.some.inj h).symm⟩
  · rw [mapGet_mapPut_ne hk] at h
    exact Or.inr ⟨hk, h⟩

/-- Total spendable funds of a wallet list: the sum of `balance` over
all entries, taken in `ℕ`. -/
def sumWallets (l : List (Addr × Wallet)) : Nat :=
  (l.map fun p => p.2.balance).sum

/-- Total spendable funds in a state. -/
def sumBalances (s : State) : Nat := sumWallets s.wallets

theorem sumWallets_mapPut {k : Addr} {w : Wallet} (v : Wallet)
    {l : List (Addr × Wallet)} (h : mapGet k l = some w) :
    sumWallets (mapPut k v l) + w.balance = sumWallets l + v.balance := by
  induction l with
  | nil => simp [mapGet] at h
  | cons p rest ih =>
    obtain ⟨k', v'⟩ := p
    by_cases hk : k = k'
    · subst hk
      simp only [mapGet, if_true, eq_self_iff_true,
        Option.some.injEq] at h
      subst h
      simp only [mapPut, if_true, eq_self_iff_true, sumWallets,
        List.map_cons, List.sum_cons]
      omega
    · simp only [mapGet, if_neg hk] at h
      have hih := ih h
      simp only [mapPut, if_neg hk, sumWallets, List.map_cons,
        List.sum_cons] at hih ⊢
      omega

/-! ## Wrapping-arithmetic lemmas -/

theorem U64SIZE_eq : U64SIZE = 18446744073709551616 := by
  norm_num [U64SIZE]

theorem wadd_eq_of_lt {a b : Nat} (h : a + b < U64SIZE) :
    wadd a b = a + b := by
  rw [wadd, Nat.mod_eq_of_lt h]

theorem wsub_eq_of_le {a b : Nat} (hb : b ≤ a) (ha : a < U64SIZE) :
    wsub a b = a - b := by
  rw [wsub, U64SIZE_eq] at *
  have hblt : b < 18446744073709551616 := lt_of_le_of_lt hb ha
  rw [Nat.mod_eq_of_lt hblt]
  omega

/-! ## The balance/freeze invariant -/

/-- Every wallet of the list has `balance_freezed ≤ balance` and a
`u64`-representable balance. -/
def WfBalL (l : List (Addr × Wallet)) : Prop :=
  ∀ k w, mapGet k l = some w →
    w.balance_freezed ≤ w.balance ∧ w.balance < U64SIZE

/-- The balance/freeze invariant on a state. -/
def WfBal (s : State) : Prop := WfBalL s.wallets

theorem wfBalL_mapPut {l : List (Addr × Wallet)} {k : Addr} {v : Wallet}
    (hl : WfBalL l) (hv : v.balance_freezed ≤ v.balance ∧
      v.balance < U64SIZE) : WfBalL (mapPut k v l) := by
  intro k' w h
  rcases mapGet_mapPut_cases h with ⟨_, hw⟩ | ⟨_, hw⟩
  · subst hw; exact hv
  · exact hl k' w hw

/-- No-credit-overflow side condition for one operation applied in a
given state: the one place the handlers add to a `balance` must stay
inside the `u64` range.  (Freezes need no condition: a freeze that
passes validation in a `WfBal` state stays below the balance.) -/
def noWrap (s : State) : Op → Prop
  | .transferOp _ to_ amount _ _ =>
      ∀ w, mapGet to_ s.wallets = some w → w.balance + amount < U64SIZE
  | .issueOp caller amount _ _ =>
      ∀ w, mapGet caller s.wallets = some w → w.balance + amount < U64SIZE
  | _ => True

/-- Reachability from the fresh store by handler invocations none of
whose credits overflows `u64`. -/
inductive ReachableNW : State → Prop where
  | init : ReachableNW initState
  | step {s : State} (o : Op) : ReachableNW s → noWrap s o →
      ReachableNW (applyOp o s).2

theorem wfBal_initState : WfBal initState := by
  intro k w h
  simp [initState, mapGet] at h

/-- Every handler invocation whose credits do not overflow preserves the
balance/freeze invariant. -/
theorem wfBal_applyOp {s : State} {o : Op} (hs : WfBal s)
    (hnw : noWrap s o) : WfBal (applyOp o s).2 := by
  cases o with
  | transferOp caller to_ amount seed tx_hash =>
    simp only [applyOp, noWrap] at hnw ⊢
    unfold transfer
    by_cases h1 : caller = to_
    · rw [if_pos h1]; exact hs
    · rw [if_neg h1]
      cases hwx : s.wallet caller with
      | none => exact hs
      | some wx =>
        cases hwy : s.wallet to_ with
        | none => exact hs
        | some wy =>
          by_cases h2 : wsub wx.balance wx.balance_freezed < amount
          · simp only [if_pos h2]; exact hs
          · simp only [if_neg h2]
            have hx := hs caller wx hwx
            have hy := hs to_ wy hwy
            have hav : amount ≤ wx.balance - wx.balance_freezed := by
              rw [wsub_eq_of_le hx.1 hx.2] at h2; omega
            have hwrap : wy.balance + amount < U64SIZE := hnw wy hwy
            have hsub : wsub wx.balance amount = wx.balance - amount :=
              wsub_eq_of_le (by omega) hx.2
            have hadd : wadd wy.balance amount = wy.balance + amount :=
              wadd_eq_of_lt hwrap
            refine wfBalL_mapPut (wfBalL_mapPut hs ?_) ?_
            · simp only [Wallet.set_balance, hsub]
              refine ⟨by omega, by omega⟩
            · simp only [Wallet.set_balance, hadd]
              refine ⟨le_trans hy.1 (by omega), hwrap⟩
  | issueOp caller amount seed tx_hash =>
    simp only [applyOp, noWrap] at hnw ⊢
    unfold issue
    cases hwx : s.wallet caller with
    | none => exact hs
    | some wx =>
      have hx := hs caller wx hwx
      have hwrap : wx.balance + amount < U64SIZE := hnw wx hwx
      have hadd : wadd wx.balance amount = wx.balance + amount :=
        wadd_eq_of_lt hwrap
      refine wfBalL_mapPut hs ?_
      simp only [Wallet.set_balance, hadd]
      exact ⟨le_trans hx.1 (by omega), hwrap⟩
  | createWalletOp caller name tx_hash =>
    simp only [applyOp]
    unfold create_wallet_tx
    cases hwx : s.wallet caller with
    | none =>
      refine wfBalL_mapPut hs ?_
      simp only [Wallet.new, INITIAL_BALANCE]
      exact ⟨by omega, by norm_num [U64SIZE]⟩
    | some wx => exact hs
  | sendApproveOp caller to_ approver amount seed nonce tx_hash =>
    simp only [applyOp]
    unfold tx_send_approve
    by_cases h1 : caller = to_
    · rw [if_pos h1]; exact hs
    · rw [if_neg h1]
      cases hwx : s.wallet caller with
      | none => exact hs
      | some wx =>
        cases hwy : s.wallet to_ with
        | none => exact hs
        | some wy =>
          cases hwa : s.wallet approver with
          | none => exact hs
          | some wa =>
            by_cases h2 : wsub wx.balance wx.balance_freezed < amount
            · simp only [if_pos h2]; exact hs
            · simp only [if_neg h2]
              have hx := hs caller wx hwx
              have hav : amount ≤ wx.balance - wx.balance_freezed := by
                rw [wsub_eq_of_le hx.1 hx.2] at h2; omega
              have hadd : wadd wx.balance_freezed amount
                  = wx.balance_freezed + amount :=
                wadd_eq_of_lt (by omega)
              refine wfBalL_mapPut hs ?_
              simp only [Wallet.set_balance_freezed, hadd]
              exact ⟨by omega, hx.2⟩

/-- Every state reachable without credit overflow satisfies the
balance/freeze invariant. -/
theorem reachableNW_wfBal {s : State} (hs : ReachableNW s) : WfBal s := by
  induction hs with
  | init => exact wfBal_initState
  | step o hr hnw ih => exact wfBal_applyOp ih hnw

/-! ## Projection lemmas for the schema primitives -/

theorem increase_wallets (s : State) (w : Wallet) (a t : Nat) :
    (s.increase_wallet_balance w a t).wallets
      = mapPut w.owner (w.set_balance (wadd w.balance a)
          (objectHash (s.history w.owner ++ [t]))) s.wallets := rfl

theorem decrease_wallets (s : State) (w : Wallet) (a t : Nat) :
    (s.decrease_wallet_balance w a t).wallets
      = mapPut w.owner (w.set_balance (wsub w.balance a)
          (objectHash (s.history w.owner ++ [t]))) s.wallets := rfl

theorem freeze_wallets (s : State) (w : Wallet) (a t : Nat) :
    (s.change_wallet_balance_freezed w a t).wallets
      = mapPut w.owner (w.set_balance_freezed (wadd w.balance_freezed a)
          (objectHash (s.history w.owner ++ [t]))) s.wallets := rfl

theorem create_wallets (s : State) (key : Addr) (nm : String) (t : Nat) :
    (s.create_wallet key nm t).wallets
      = mapPut key (Wallet.new key nm INITIAL_BALANCE 0
          (s.history key ++ [t]).length
          (objectHash (s.history key ++ [t]))) s.wallets := rfl

theorem approve_wallets (s : State) (w : Wallet) (a : Nat)
    (to_ ap : Addr) (t n : Nat) :
    (s.create_approve_transaction w a to_ ap t n).wallets
      = (s.change_wallet_balance_freezed w a t).wallets := rfl

theorem approve_approvals (s : State) (w : Wallet) (a : Nat)
    (to_ ap : Addr) (t n : Nat) :
    (s.create_approve_transaction w a to_ ap t n).approval_transactions
      = mapPut t (TxSendApprove.new to_ a ap n)
          s.approval_transactions := rfl

theorem increase_history (s : State) (w : Wallet) (a t : Nat) (k : Addr) :
    (s.increase_wallet_balance w a t).history k
      = if k = w.owner then s.history w.owner ++ [t]
        else s.history k := by
  by_cases h : k = w.owner
  · subst h
    simp [State.increase_wallet_balance, State.history, mapGet_mapPut_self]
  · simp [State.increase_wallet_balance, State.history,
      mapGet_mapPut_ne h, h]

theorem decrease_history (s : State) (w : Wallet) (a t : Nat) (k : Addr) :
    (s.decrease_wallet_balance w a t).history k
      = if k = w.owner then s.history w.owner ++ [t]
        else s.history k := by
  by_cases h : k = w.owner
  · subst h
    simp [State.decrease_wallet_balance, State.history, mapGet_mapPut_self]
  · simp [State.decrease_wallet_balance, State.history,
      mapGet_mapPut_ne h, h]

theorem freeze_history (s : State) (w : Wallet) (a t : Nat) (k : Addr) :
    (s.change_wallet_balance_freezed w a t).history k
      = if k = w.owner then s.history w.owner ++ [t]
        else s.history k := by
  by_cases h : k = w.owner
  · subst h
    simp [State.change_wallet_balance_freezed, State.history,
      mapGet_mapPut_self]
  · simp [State.change_wallet_balance_freezed, State.history,
      mapGet_mapPut_ne h, h]

theorem create_history (s : State) (key : Addr) (nm : String) (t : Nat)
    (k : Addr) :
    (s.create_wallet key nm t).history k
      = if k = key then s.history key ++ [t] else s.history k := by
  by_cases h : k = key
  · subst h
    simp [State.create_wallet, State.history, mapGet_mapPut_self]
  · simp [State.create_wallet, State.history, mapGet_mapPut_ne h, h]

theorem approve_history (s : State) (w : Wallet) (a : Nat)
    (to_ ap : Addr) (t n : Nat) (k : Addr) :
    (s.create_approve_transaction w a to_ ap t n).history k
      = (s.change_wallet_balance_freezed w a t).history k := rfl

/-! ## The history-consistency invariant -/

/-- Every present wallet is stored under its own `owner` key, its
`history_len` counts its history log, and its `history_hash` digests
that log; every absent wallet has an empty log. -/
def WfHist (s : State) : Prop :=
  (∀ k w, mapGet k s.wallets = some w →
      w.owner = k ∧ w.history_len = (s.history k).length ∧
      w.history_hash = objectHash (s.history k)) ∧
  ∀ k, mapGet k s.wallets = none → s.history k = []

/-- The common mutate-one-wallet shape of `increase_wallet_balance`,
`decrease_wallet_balance` and `change_wallet_balance_freezed` preserves
`WfHist`: the stored wallet gets history length one more and the digest
of the appended log. -/
theorem wfHist_put_step {s : State} {w w' : Wallet} {t : TxHash}
    (hs : WfHist s) (hw : mapGet w.owner s.wallets = some w)
    (hown : w'.owner = w.owner)
    (hlen : w'.history_len = w.history_len + 1)
    (hhash : w'.history_hash = objectHash (s.history w.owner ++ [t])) :
    WfHist
      { s with
          wallets := mapPut w'.owner w' s.wallets,
          wallet_history := mapPut w.owner (s.history w.owner ++ [t])
            s.wallet_history } := by
  have hlenw := (hs.1 w.owner w hw).2.1
  have hist_eq : ∀ k : Addr,
      State.history
        { s with
            wallets := mapPut w'.owner w' s.wallets,
            wallet_history := mapPut w.owner (s.history w.owner ++ [t])
              s.wallet_history } k
        = if k = w.owner then s.history w.owner ++ [t]
          else s.history k := by
    intro k
    by_cases h : k = w.owner
    · subst h; simp [State.history, mapGet_mapPut_self]
    · simp [State.history, mapGet_mapPut_ne h, h]
  constructor
  · intro k wk hget
    rw [hown] at hget
    rw [hist_eq k]
    rcases mapGet_mapPut_cases hget with ⟨hk, hwk⟩ | ⟨hk, hwk⟩
    · subst hk; subst hwk
      rw [if_pos rfl]
      refine ⟨hown, ?_, ?_⟩
      · rw [hlen, hlenw]; simp
      · exact hhash
    · rw [if_neg hk]
      exact hs.1 k wk hwk
  · intro k hget
    have hk : k ≠ w.owner := by
      intro he
      rw [he, ← hown, mapGet_mapPut_self] at hget
      exact Option.noConfusion hget
    rw [hist_eq k, if_neg hk]
    rw [hown] at hget
    rw [mapGet_mapPut_ne hk] at hget
    exact hs.2 k hget

/-- `create_wallet` preserves `WfHist`: the new wallet is stored under
its key with the post-append log length and digest. -/
theorem wfHist_create {s : State} (hs : WfHist s) (key : Addr)
    (nm : String) (t : TxHash) : WfHist (s.create_wallet key nm t) := by
  constructor
  · intro k wk hget
    rw [create_wallets] at hget
    rw [create_history]
    rcases mapGet_mapPut_cases hget with ⟨hk, hwk⟩ | ⟨hk, hwk⟩
    · subst hk; subst hwk
      rw [if_pos rfl]
      exact ⟨rfl, rfl, rfl⟩
    · rw [if_neg hk]
      exact hs.1 k wk hwk
  · intro k hget
    rw [create_wallets] at hget
    have hk : k ≠ key := by
      intro he
      rw [he, mapGet_mapPut_self] at hget
      exact Option.noConfusion hget
    rw [create_history, if_neg hk]
    rw [mapGet_mapPut_ne hk] at hget
    exact hs.2 k hget

/-- Every handler invocation preserves the history-consistency
invariant. -/
theorem wfHist_applyOp {s : State} (o : Op) (hs : WfHist s) :
    WfHist (applyOp o s).2 := by
  cases o with
  | transferOp caller to_ amount seed tx_hash =>
    simp only [applyOp]
    unfold transfer
    by_cases h1 : caller = to_
    · rw [if_pos h1]; exact hs
    · rw [if_neg h1]
      cases hwx : s.wallet caller with
      | none => exact hs
      | some wx =>
        cases hwy : s.wallet to_ with
        | none => exact hs
        | some wy =>
          by_cases h2 : wsub wx.balance wx.balance_freezed < amount
          · simp only [if_pos h2]; exact hs
          · simp only [if_neg h2]
            have hox : wx.owner = caller := (hs.1 caller wx hwx).1
            have hoy : wy.owner = to_ := (hs.1 to_ wy hwy).1
            have hw1 : mapGet wx.owner s.wallets = some wx := by
              rw [hox]; exact hwx
            have hs1 : WfHist (s.decrease_wallet_balance wx amount
                tx_hash) := wfHist_put_step hs hw1 rfl rfl rfl
            have hne : wy.owner ≠ wx.owner := by
              rw [hox, hoy]; exact fun he => h1 he.symm
            have hw2 : mapGet wy.owner
                (s.decrease_wallet_balance wx amount tx_hash).wallets
                  = some wy := by
              rw [decrease_wallets, mapGet_mapPut_ne hne, hoy]
              exact hwy
            exact wfHist_put_step hs1 hw2 rfl rfl rfl
  | issueOp caller amount seed tx_hash =>
    simp only [applyOp]
    unfold issue
    cases hwx : s.wallet caller with
    | none => exact hs
    | some wx =>
      have hox : wx.owner = caller := (hs.1 caller wx hwx).1
      have hw1 : mapGet wx.owner s.wallets = some wx := by
        rw [hox]; exact hwx
      exact wfHist_put_step hs hw1 rfl rfl rfl
  | createWalletOp caller name tx_hash =>
    simp only [applyOp]
    unfold create_wallet_tx
    cases hwx : s.wallet caller with
    | none => exact wfHist_create hs caller name tx_hash
    | some wx => exact hs
  | sendApproveOp caller to_ approver amount seed nonce tx_hash =>
    simp only [applyOp]
    unfold tx_send_approve
    by_cases h1 : caller = to_
    · rw [if_pos h1]; exact hs
    · rw [if_neg h1]
      cases hwx : s.wallet caller with
      | none => exact hs
      | some wx =>
        cases hwy : s.wallet to_ with
        | none => exact hs
        | some wy =>
          cases hwa : s.wallet approver with
          | none => exact hs
          | some wa =>
            by_cases h2 : wsub wx.balance wx.balance_freezed < amount
            · simp only [if_pos h2]; exact hs
            · simp only [if_neg h2]
              have hox : wx.owner = caller := (hs.1 caller wx hwx).1
              have hw1 : mapGet wx.owner s.wallets = some wx := by
                rw [hox]; exact hwx
              exact wfHist_put_step hs hw1 rfl rfl rfl

theorem wfHist_initState : WfHist initState := by
  constructor
  · intro k w h
    simp [initState, mapGet] at h
  · intro k _
    simp [initState, State.history, mapGet]

/-- Every reachable state satisfies the history-consistency
invariant. -/
theorem reachable_wfHist {s : State} (hs : Reachable s) : WfHist s := by
  induction hs with
  | init => exact wfHist_initState
  | step o hr ih => exact wfHist_applyOp o ih

/-- Every list of operations applied to the fresh store lands in a
reachable state. -/
theorem reachable_runOps (l : List Op) :
    Reachable (runOps l initState) := by
  have haux : ∀ (l : List Op) (s : State), Reachable s →
      Reachable (runOps l s) := by
    intro l
    induction l with
    | nil => intro s hr; exact hr
    | cons o rest ih =>
      intro s hr
      exact ih (applyOp o s).2 (Reachable.step o hr)
  exact haux l initState Reachable.init

/-! ## Nonce-agnosticism machinery -/

theorem increase_hist_map (s : State) (w : Wallet) (a t : Nat) :
    (s.increase_wallet_balance w a t).wallet_history
      = mapPut w.owner (s.history w.owner ++ [t]) s.wallet_history := rfl

theorem decrease_hist_map (s : State) (w : Wallet) (a t : Nat) :
    (s.decrease_wallet_balance w a t).wallet_history
      = mapPut w.owner (s.history w.owner ++ [t]) s.wallet_history := rfl

theorem freeze_hist_map (s : State) (w : Wallet) (a t : Nat) :
    (s.change_wallet_balance_freezed w a t).wallet_history
      = mapPut w.owner (s.history w.owner ++ [t]) s.wallet_history := rfl

theorem create_hist_map (s : State) (key : Addr) (nm : String) (t : Nat) :
    (s.create_wallet key nm t).wallet_history
      = mapPut key (s.history key ++ [t]) s.wallet_history := rfl

theorem approve_hist_map (s : State) (w : Wallet) (a : Nat)
    (to_ ap : Addr) (t n : Nat) :
    (s.create_approve_transaction w a to_ ap t n).wallet_history
      = (s.change_wallet_balance_freezed w a t).wallet_history := rfl

/-- Zero out the modelled `thread_rng` draw of an operation. -/
def Op.eraseNonce : Op → Op
  | .sendApproveOp caller to_ approver amount seed _ tx_hash =>
      .sendApproveOp caller to_ approver amount seed 0 tx_hash
  | o => o

/-- Replace the modelled `thread_rng` draw of an operation. -/
def Op.setNonce : Op → Nat → Op
  | .sendApproveOp caller to_ approver amount seed _ tx_hash, n =>
      .sendApproveOp caller to_ approver amount seed n tx_hash
  | o, _ => o

theorem eraseNonce_ex {o₁ o₂ : Op} (ho : o₁.eraseNonce = o₂.eraseNonce) :
    ∃ n : Nat, o₂ = o₁.setNonce n := by
  cases o₁ <;> cases o₂ <;> simp_all [Op.eraseNonce, Op.setNonce]

/-- A single handler invocation's outcome and its effect on wallets and
histories do not depend on the `thread_rng` draw (nor on the stored
approval records). -/
theorem applyOp_setNonce {o : Op} {n : Nat} {s₁ s₂ : State}
    (hw : s₁.wallets = s₂.wallets)
    (hh : s₁.wallet_history = s₂.wallet_history) :
    (applyOp o s₁).1 = (applyOp (o.setNonce n) s₂).1 ∧
    (applyOp o s₁).2.wallets = (applyOp (o.setNonce n) s₂).2.wallets ∧
    (applyOp o s₁).2.wallet_history
      = (applyOp (o.setNonce n) s₂).2.wallet_history := by
  have hwal : ∀ k, s₁.wallet k = s₂.wallet k := fun k => by
    simp [State.wallet, hw]
  have hist : ∀ k, s₁.history k = s₂.history k := fun k => by
    simp [State.history, hh]
  cases o with
  | transferOp caller to_ amount seed tx_hash =>
    simp only [Op.setNonce, applyOp]
    unfold transfer
    by_cases h1 : caller = to_
    · simp [h1, hw, hh]
    · rw [if_neg h1, if_neg h1, hwal caller, hwal to_]
      cases hx : s₂.wallet caller with
      | none => simp [hw, hh]
      | some wx =>
        cases hy : s₂.wallet to_ with
        | none => simp [hw, hh]
        | some wy =>
          by_cases h2 : wsub wx.balance wx.balance_freezed < amount
          · simp [h2, hw, hh]
          · simp only [if_neg h2]
            refine ⟨trivial, ?_, ?_⟩
            · simp only [increase_wallets, decrease_wallets,
                decrease_history, hist, hw]
            · simp only [increase_hist_map, decrease_hist_map,
                decrease_history, hist, hh]
  | issueOp caller amount seed tx_hash =>
    simp only [Op.setNonce, applyOp]
    unfold issue
    rw [hwal caller]
    cases hx : s₂.wallet caller with
    | none => simp [hw, hh]
    | some wx =>
      refine ⟨rfl, ?_, ?_⟩
      · simp only [increase_wallets, hist, hw]
      · simp only [increase_hist_map, hist, hh]
  | createWalletOp caller name tx_hash =>
    simp only [Op.setNonce, applyOp]
    unfold create_wallet_tx
    rw [hwal caller]
    cases hx : s₂.wallet caller with
    | some wx => simp [hw, hh]
    | none =>
      refine ⟨rfl, ?_, ?_⟩
      · simp only [create_wallets, hist, hw]
      · simp only [create_hist_map, hist, hh]
  | sendApproveOp caller to_ approver amount seed nonce tx_hash =>
    simp only [Op.setNonce, applyOp]
    unfold tx_send_approve
    by_cases h1 : caller = to_
    · simp [h1, hw, hh]
    · rw [if_neg h1, if_neg h1, hwal caller, hwal to_, hwal approver]
      cases hx : s₂.wallet caller with
      | none => simp [hw, hh]
      | some wx =>
        cases hy : s₂.wallet to_ with
        | none => simp [hw, hh]
        | some wy =>
          cases ha : s₂.wallet approver with
          | none => simp [hw, hh]
          | some wa =>
            by_cases h2 : wsub wx.balance wx.balance_freezed < amount
            · simp [h2, hw, hh]
            · simp only [if_neg h2]
              refine ⟨trivial, ?_, ?_⟩
              · simp only [approve_wallets, freeze_wallets, hist, hw]
              · simp only [approve_hist_map, freeze_hist_map, hist, hh]

/-- Runs of two operation sequences that agree up to the `thread_rng`
draws agree on wallets, histories, and every handler outcome. -/
theorem run_nonce_agnostic {l₁ l₂ : List Op} {s₁ s₂ : State}
    (hl : l₁.map Op.eraseNonce = l₂.map Op.eraseNonce)
    (hw : s₁.wallets = s₂.wallets)
    (hh : s₁.wallet_history = s₂.wallet_history) :
    (runOps l₁ s₁).wallets = (runOps l₂ s₂).wallets ∧
    (runOps l₁ s₁).wallet_history = (runOps l₂ s₂).wallet_history ∧
    runErrs l₁ s₁ = runErrs l₂ s₂ := by
  induction l₁ generalizing l₂ s₁ s₂ with
  | nil =>
    cases l₂ with
    | nil => exact ⟨hw, hh, rfl⟩
    | cons _ _ => simp at hl
  | cons o rest ih =>
    cases l₂ with
    | nil => simp at hl
    | cons o₂ rest₂ =>
      simp only [List.map_cons, List.cons.injEq] at hl
      obtain ⟨ho, hrest⟩ := hl
      obtain ⟨n, rfl⟩ := eraseNonce_ex ho
      obtain ⟨he, hw2, hh2⟩ := applyOp_setNonce (o := o) (n := n) hw hh
      have hrec := ih hrest hw2 hh2
      refine ⟨hrec.1, hrec.2.1, ?_⟩
      simp only [runErrs]
      rw [he, hrec.2.2]

/-! ## Concrete traces used by witnesses and counterexamples -/

/-- Two accounts created from the fresh store. -/
def demoState : State :=
  runOps [Op.createWalletOp 1 "a" 10, Op.createWalletOp 2 "b" 11]
    initState

/-- Three accounts created from the fresh store. -/
def demo3State : State :=
  runOps [Op.createWalletOp 1 "a" 10, Op.createWalletOp 2 "b" 11,
    Op.createWalletOp 3 "c" 12] initState

/-- A trace that drives account 1 into `balance_freezed > balance`: an
escrow freezes 60 of its 100, then an `Issue` of `2^64 - 50` wraps its
balance around to 50. -/
def overflowTrace : List Op :=
  [Op.createWalletOp 1 "a" 10, Op.createWalletOp 2 "b" 11,
   Op.createWalletOp 3 "c" 12, Op.sendApproveOp 1 2 3 60 0 777 13,
   Op.issueOp 1 (U64SIZE - 50) 0 14]

/-- The corrupted reachable state produced by `overflowTrace`. -/
def overflowState : State := runOps overflowTrace initState

/-- A trace that parks account 2 at the maximal `u64` balance
`2^64 - 1`. -/
def hugeTrace : List Op :=
  [Op.createWalletOp 1 "a" 10, Op.createWalletOp 2 "b" 11,
   Op.issueOp 2 (U64SIZE - 101) 0 12]

/-- The reachable state produced by `hugeTrace`. -/
def hugeState : State := runOps hugeTrace initState

/-! ## Claim C1 -/

/-- C1 as stated is false: the frozen-balance invariant
`balance_frozen ≤ balance` fails in a reachable state, because `Issue`
adds to `balance` with wrapping `u64` arithmetic.  After `overflowTrace`
account 1 holds `balance = 50` with `balance_freezed = 60`. -/
theorem C1_counterexample :
    ¬ ∀ s : State, Reachable s → ∀ k w, mapGet k s.wallets = some w →
        w.balance_freezed ≤ w.balance := by
  intro h
  have hget : mapGet 1 overflowState.wallets
      = some (Wallet.new 1 "a" 50 60 3 (objectHash [10, 13, 14])) := by
    decide
  have hle := h overflowState (reachable_runOps overflowTrace) 1
    (Wallet.new 1 "a" 50 60 3 (objectHash [10, 13, 14])) hget
  exact absurd hle (by decide)

/-- C1 (amended): in every state reachable from the fresh store by
handler invocations none of whose balance credits overflows `u64`, every
existing account satisfies `balance_frozen ≤ balance`. -/
theorem C1_frozen_le_balance {s : State} (hs : ReachableNW s) :
    ∀ k w, mapGet k s.wallets = some w →
      w.balance_freezed ≤ w.balance :=
  fun k w h => ((reachableNW_wfBal hs) k w h).1

/-- Witness for C1 at the one-account state created from fresh. -/
theorem C1_witness :
    (Wallet.new 1 "a" 100 0 1 (objectHash [10])).balance_freezed
      ≤ (Wallet.new 1 "a" 100 0 1 (objectHash [10])).balance :=
  C1_frozen_le_balance
    (ReachableNW.step (Op.createWalletOp 1 "a" 10) ReachableNW.init
      trivial)
    1 (Wallet.new 1 "a" 100 0 1 (objectHash [10])) (by decide)

/-! ## Claim C2 -/

theorem applyOp_ok_or_noop (o : Op) (s : State) :
    (applyOp o s).1 = none ∨ (applyOp o s).2 = s := by
  cases o with
  | transferOp caller to_ amount seed tx_hash =>
    simp only [applyOp]
    unfold transfer
    by_cases h1 : caller = to_
    · right; rw [if_pos h1]
    · rw [if_neg h1]
      cases hx : s.wallet caller with
      | none => right; rfl
      | some wx =>
        cases hy : s.wallet to_ with
        | none => right; rfl
        | some wy =>
          by_cases h2 : wsub wx.balance wx.balance_freezed < amount
          · right; simp only [if_pos h2]
          · left; simp only [if_neg h2]
  | issueOp caller amount seed tx_hash =>
    simp only [applyOp]
    unfold issue
    cases hx : s.wallet caller with
    | none => right; rfl
    | some wx => left; rfl
  | createWalletOp caller name tx_hash =>
    simp only [applyOp]
    unfold create_wallet_tx
    cases hx : s.wallet caller with
    | none => left; rfl
    | some wx => right; rfl
  | sendApproveOp caller to_ approver amount seed nonce tx_hash =>
    simp only [applyOp]
    unfold tx_send_approve
    by_cases h1 : caller = to_
    · right; rw [if_pos h1]
    · rw [if_neg h1]
      cases hx : s.wallet caller with
      | none => right; rfl
      | some wx =>
        cases hy : s.wallet to_ with
        | none => right; rfl
        | some wy =>
          cases ha : s.wallet approver with
          | none => right; rfl
          | some wa =>
            by_cases h2 : wsub wx.balance wx.balance_freezed < amount
            · right; simp only [if_pos h2]
            · left; simp only [if_neg h2]

/-- C2: any invocation of any of the four handlers that returns an
error leaves the whole schema state — wallet map, approval-transaction
map, and every per-account history log — unchanged. -/
theorem C2_error_noop {s : State} {o : Op} {e : Error}
    (h : (applyOp o s).1 = some e) : (applyOp o s).2 = s := by
  rcases applyOp_ok_or_noop o s with hok | hnoop
  · rw [hok] at h; exact Option.noConfusion h
  · exact hnoop

/-- Witness for C2: a self-transfer on the fresh store errors and
leaves the state untouched. -/
theorem C2_witness :
    (applyOp (Op.transferOp 1 1 5 0 99) initState).1
        = some Error.SenderSameAsReceiver ∧
    (applyOp (Op.transferOp 1 1 5 0 99) initState).2 = initState := by
  have h : (applyOp (Op.transferOp 1 1 5 0 99) initState).1
      = some Error.SenderSameAsReceiver := by decide
  exact ⟨h, C2_error_noop h⟩

/-! ## Claim C5 -/

/-- A wallet holding the maximal `u64` balance. -/
def maxWallet : Wallet := Wallet.new 1 "rich" (U64SIZE - 1) 0 1
  (objectHash [10])

/-- A wallet holding balance 0. -/
def zeroWallet : Wallet := Wallet.new 2 "poor" 0 0 1 (objectHash [11])

/-- A state containing `maxWallet` and `zeroWallet`. -/
def wrapState : State :=
  ⟨[(1, maxWallet), (2, zeroWallet)], [], [(1, [10]), (2, [11])]⟩

/-- C5 names a code bug: the balance-mutation primitives have no
failure path at all (no Overflow/Underflow error exists in the source's
error enum) and their unchecked `u64` arithmetic wraps.  Crediting 1 to
a `2^64 - 1` balance yields 0; debiting 1 from a 0 balance yields
`2^64 - 1`; and the wrap is reachable through the `Issue` handler, which
returns `Ok` while destroying funds. -/
theorem C5_primitives_wrap :
    ((wrapState.increase_wallet_balance maxWallet 1 12).wallet 1).map
        Wallet.balance = some 0 ∧
    ((wrapState.decrease_wallet_balance zeroWallet 1 13).wallet 2).map
        Wallet.balance = some (U64SIZE - 1) ∧
    (issue hugeState 2 5 0 13).1 = none ∧
    ((issue hugeState 2 5 0 13).2.wallet 2).map Wallet.balance
        = some 4 := by
  refine ⟨by decide, by decide, by decide, by decide⟩

/-! ## Claim C9 -/

/-- C9: in every reachable state, `CreateWallet` fails with
`WalletAlreadyExists` (leaving the state unchanged) exactly when the
caller already has an account, and otherwise creates an account with
balance `INITIAL_BALANCE`, frozen balance 0, and a single first history
entry equal to the operation identifier. -/
theorem C9_create_wallet_spec {s : State} (hs : Reachable s)
    (caller : Addr) (nm : String) (tx_hash : TxHash) :
    ((s.wallet caller).isSome →
        create_wallet_tx s caller nm tx_hash
          = (some Error.WalletAlreadyExists, s)) ∧
    (s.wallet caller = none →
        (create_wallet_tx s caller nm tx_hash).1 = none ∧
        (create_wallet_tx s caller nm tx_hash).2.wallet caller
          = some (Wallet.new caller nm INITIAL_BALANCE 0 1
              (objectHash [tx_hash])) ∧
        (create_wallet_tx s caller nm tx_hash).2.history caller
          = [tx_hash]) := by
  constructor
  · intro hsome
    obtain ⟨w, hw⟩ := Option.isSome_iff_exists.mp hsome
    unfold create_wallet_tx
    simp only [hw]
  · intro hnone
    have hemp : s.history caller = []
      := (reachable_wfHist hs).2 caller hnone
    unfold create_wallet_tx
    simp only [hnone]
    refine ⟨trivial, ?_, ?_⟩
    · rw [State.wallet, create_wallets, mapGet_mapPut_self, hemp]
      simp
    · rw [create_history, if_pos rfl, hemp]
      simp

/-- Witness for C9, following the spec's Scenario 1: creating "alice"
from fresh succeeds with the specified record; creating "alice" again
fails `WalletAlreadyExists` and is a no-op. -/
theorem C9_witness :
    (create_wallet_tx initState 1 "alice" 10).1 = none ∧
    (create_wallet_tx initState 1 "alice" 10).2.wallet 1
      = some (Wallet.new 1 "alice" INITIAL_BALANCE 0 1
          (objectHash [10])) ∧
    create_wallet_tx (create_wallet_tx initState 1 "alice" 10).2 1
        "alice" 11
      = (some Error.WalletAlreadyExists,
          (create_wallet_tx initState 1 "alice" 10).2) := by
  have h0 := C9_create_wallet_spec Reachable.init 1 "alice" 10
  have h1 := C9_create_wallet_spec
    (Reachable.step (Op.createWalletOp 1 "alice" 10) Reachable.init)
    1 "alice" 11
  obtain ⟨ha, hb, _⟩ := h0.2 (by decide)
  exact ⟨ha, hb, h1.1 (by decide)⟩

/-! ## Claim C3 -/

/-- C3 as stated is false even across reachable states: a transfer of 5
into an account sitting at balance `2^64 - 1` returns `Ok` but wraps the
receiver's balance to 4, shrinking the total balance sum. -/
theorem C3_counterexample :
    ¬ ∀ (s : State) (X Y : Addr) (A seed tx_hash : Nat),
        Reachable s → X ≠ Y →
        (s.wallet X).isSome → (s.wallet Y).isSome →
        (transfer s X Y A seed tx_hash).1 = none →
        sumBalances (transfer s X Y A seed tx_hash).2 = sumBalances s := by
  intro h
  have := h hugeState 1 2 5 0 13 (reachable_runOps hugeTrace)
    (by decide) (by decide) (by decide) (by decide)
  exact absurd this (by decide)

/-- C3 (amended): for well-formed sender and receiver records (owner
field matching the key, `balance_frozen ≤ balance < 2^64`) and a credit
that stays in `u64` range (`Y.balance + A < 2^64`), a successful
Transfer moves exactly `A`: the sender's balance drops by `A`, the
receiver's rises by `A`, and the total balance sum is conserved. -/
theorem C3_transfer_conservation {s : State} {X Y : Addr}
    {A seed tx_hash : Nat} {wx wy : Wallet}
    (hne : X ≠ Y) (hwx : s.wallet X = some wx)
    (hwy : s.wallet Y = some wy)
    (hox : wx.owner = X) (hoy : wy.owner = Y)
    (hfz : wx.balance_freezed ≤ wx.balance) (hbx : wx.balance < U64SIZE)
    (hnw : wy.balance + A < U64SIZE)
    (hok : (transfer s X Y A seed tx_hash).1 = none) :
    A ≤ wx.balance ∧
    ((transfer s X Y A seed tx_hash).2.wallet X).map Wallet.balance
      = some (wx.balance - A) ∧
    ((transfer s X Y A seed tx_hash).2.wallet Y).map Wallet.balance
      = some (wy.balance + A) ∧
    sumBalances (transfer s X Y A seed tx_hash).2 = sumBalances s := by
  unfold transfer at hok ⊢
  rw [if_neg hne] at hok ⊢
  simp only [hwx, hwy] at hok ⊢
  by_cases h2 : wsub wx.balance wx.balance_freezed < A
  · rw [if_pos h2] at hok
    exact absurd hok (by simp)
  · simp only [if_neg h2] at hok ⊢
    have hA : A ≤ wx.balance - wx.balance_freezed := by
      rw [wsub_eq_of_le hfz hbx] at h2; omega
    have hAb : A ≤ wx.balance := le_trans hA (Nat.sub_le _ _)
    have hsub : wsub wx.balance A = wx.balance - A :=
      wsub_eq_of_le hAb hbx
    have hadd : wadd wy.balance A = wy.balance + A := wadd_eq_of_lt hnw
    have hyx : wy.owner ≠ wx.owner := by
      rw [hox, hoy]; exact fun he => hne he.symm
    refine ⟨hAb, ?_, ?_, ?_⟩
    · rw [State.wallet, increase_wallets, decrease_wallets,
        mapGet_mapPut_ne (by rw [hoy]; exact hne), hox,
        mapGet_mapPut_self]
      simp [Wallet.set_balance, hsub]
    · rw [State.wallet, increase_wallets, hoy, mapGet_mapPut_self]
      simp [Wallet.set_balance, hadd]
    · rw [sumBalances, sumBalances, increase_wallets, decrease_wallets]
      have hgx : mapGet wx.owner s.wallets = some wx := by
        rw [hox]; exact hwx
      have hgy : mapGet wy.owner
          (mapPut wx.owner (wx.set_balance (wsub wx.balance A)
            (objectHash (s.history wx.owner ++ [tx_hash])))
            s.wallets) = some wy := by
        rw [mapGet_mapPut_ne hyx, hoy]; exact hwy
      have e2 := sumWallets_mapPut (wx.set_balance (wsub wx.balance A)
        (objectHash (s.history wx.owner ++ [tx_hash]))) hgx
      have e1 := sumWallets_mapPut (wy.set_balance (wadd wy.balance A)
        (objectHash ((s.decrease_wallet_balance wx A tx_hash).history
          wy.owner ++ [tx_hash]))) hgy
      simp only [Wallet.set_balance, hsub, hadd] at e1 e2 ⊢
      omega

/-- Witness for C3: transferring 5 between the two fresh accounts. -/
theorem C3_witness :
    ((transfer demoState 1 2 5 0 12).2.wallet 1).map Wallet.balance
        = some 95 ∧
    ((transfer demoState 1 2 5 0 12).2.wallet 2).map Wallet.balance
        = some 105 ∧
    sumBalances (transfer demoState 1 2 5 0 12).2
        = sumBalances demoState := by
  have hwx : demoState.wallet 1
      = some (Wallet.new 1 "a" 100 0 1 (objectHash [10])) := by decide
  have hwy : demoState.wallet 2
      = some (Wallet.new 2 "b" 100 0 1 (objectHash [11])) := by decide
  have hne : (1 : Addr) ≠ 2 := by decide
  have hox : (Wallet.new 1 "a" 100 0 1 (objectHash [10])).owner = 1 := by
    decide
  have hoy : (Wallet.new 2 "b" 100 0 1 (objectHash [11])).owner = 2 := by
    decide
  have hfz : (Wallet.new 1 "a" 100 0 1
        (objectHash [10])).balance_freezed
      ≤ (Wallet.new 1 "a" 100 0 1 (objectHash [10])).balance := by decide
  have hbx : (Wallet.new 1 "a" 100 0 1 (objectHash [10])).balance
      < U64SIZE := by decide
  have hnw : (Wallet.new 2 "b" 100 0 1 (objectHash [11])).balance + 5
      < U64SIZE := by decide
  have hok : (transfer demoState 1 2 5 0 12).1 = none := by decide
  have h := C3_transfer_conservation hne hwx hwy hox hoy hfz hbx hnw hok
  exact ⟨h.2.1, h.2.2.1, h.2.2.2⟩

/-! ## Claim C4 -/

/-- C4 as stated is false: in the reachable overflow-corrupted state
where account 1 has `balance = 50 < balance_freezed = 60`, a transfer of
100 has (truncated) available balance `0 < 100`, yet the handler's
wrapping subtraction `50 - 60` produces a huge `u64` value, so the
transfer succeeds instead of failing `InsufficientCurrencyAmount`. -/
theorem C4_counterexample :
    ¬ ∀ (s : State) (caller to_ : Addr) (amount seed tx_hash : Nat)
        (wx : Wallet), Reachable s → caller ≠ to_ →
        s.wallet caller = some wx → (s.wallet to_).isSome →
        (((transfer s caller to_ amount seed tx_hash).1
            = some Error.InsufficientCurrencyAmount)
          ↔ wx.balance - wx.balance_freezed < amount) := by
  intro h
  have hwx : overflowState.wallet 1
      = some (Wallet.new 1 "a" 50 60 3 (objectHash [10, 13, 14])) := by
    decide
  have hiff := h overflowState 1 2 100 0 15
    (Wallet.new 1 "a" 50 60 3 (objectHash [10, 13, 14]))
    (reachable_runOps overflowTrace) (by decide) hwx (by decide)
  have hfail := hiff.mpr (by decide)
  exact absurd hfail (by decide)

/-- C4 (amended): for distinct existing caller and receiver whose
sender record satisfies the intended invariant
`balance_frozen ≤ balance < 2^64`, Transfer fails with
`InsufficientCurrencyAmount` exactly when the available balance
`balance - balance_frozen` is strictly below the requested amount; in
particular frozen funds are never spendable by ordinary Transfer. -/
theorem C4_insufficient_iff {s : State} {caller to_ : Addr}
    (amount seed tx_hash : Nat) {wx : Wallet}
    (hne : caller ≠ to_) (hwx : s.wallet caller = some wx)
    (hwy : (s.wallet to_).isSome)
    (hfz : wx.balance_freezed ≤ wx.balance)
    (hbx : wx.balance < U64SIZE) :
    ((transfer s caller to_ amount seed tx_hash).1
        = some Error.InsufficientCurrencyAmount)
      ↔ wx.balance - wx.balance_freezed < amount := by
  unfold transfer
  rw [if_neg hne]
  simp only [hwx]
  obtain ⟨wy, hwy'⟩ := Option.isSome_iff_exists.mp hwy
  simp only [hwy']
  rw [wsub_eq_of_le hfz hbx]
  by_cases h2 : wx.balance - wx.balance_freezed < amount
  · simp [h2]
  · simp [h2]

/-- Witness for C4, following the spec's Scenario 2: transferring 150
out of a balance of 100 fails `InsufficientCurrencyAmount`. -/
theorem C4_witness :
    (transfer demoState 1 2 150 0 12).1
      = some Error.InsufficientCurrencyAmount := by
  have hwx : demoState.wallet 1
      = some (Wallet.new 1 "a" 100 0 1 (objectHash [10])) := by decide
  have hne : (1 : Addr) ≠ 2 := by decide
  have hwy : (demoState.wallet 2).isSome := by decide
  have hfz : (Wallet.new 1 "a" 100 0 1
        (objectHash [10])).balance_freezed
      ≤ (Wallet.new 1 "a" 100 0 1 (objectHash [10])).balance := by decide
  have hbx : (Wallet.new 1 "a" 100 0 1 (objectHash [10])).balance
      < U64SIZE := by decide
  have h := C4_insufficient_iff 150 0 12 hne hwx hwy hfz hbx
  exact h.mpr (by decide)

/-! ## Claim C6 -/

/-- C6: running two operation sequences that agree on everything except
the modelled `thread_rng` draws — in particular, replaying the same
sequence of operation identifiers — produces identical wallet maps from
the fresh store, and identical per-invocation outcomes (the same error,
if any, at every position).  The escrow nonce therefore never affects
any handler's validation outcome. -/
theorem C6_determinism_nonce_agnostic {l₁ l₂ : List Op}
    (hl : l₁.map Op.eraseNonce = l₂.map Op.eraseNonce) :
    (runOps l₁ initState).wallets = (runOps l₂ initState).wallets ∧
    runErrs l₁ initState = runErrs l₂ initState :=
  ⟨(run_nonce_agnostic hl rfl rfl).1,
   (run_nonce_agnostic hl rfl rfl).2.2⟩

/-- A demo trace ending in an escrow with one `thread_rng` draw. -/
def nonceTraceA : List Op :=
  [Op.createWalletOp 1 "a" 10, Op.createWalletOp 2 "b" 11,
   Op.createWalletOp 3 "c" 12, Op.sendApproveOp 1 2 3 40 0 777 13,
   Op.transferOp 1 1 1 0 14]

/-- `nonceTraceA` with a different `thread_rng` draw. -/
def nonceTraceB : List Op :=
  [Op.createWalletOp 1 "a" 10, Op.createWalletOp 2 "b" 11,
   Op.createWalletOp 3 "c" 12, Op.sendApproveOp 1 2 3 40 0 999 13,
   Op.transferOp 1 1 1 0 14]

/-- Witness for C6: the two demo traces differ only in the nonce and
produce the same wallets and the same outcome list. -/
theorem C6_witness :
    (runOps nonceTraceA initState).wallets
        = (runOps nonceTraceB initState).wallets ∧
    runErrs nonceTraceA initState = runErrs nonceTraceB initState :=
  C6_determinism_nonce_agnostic (by decide)

/-! ## Claim C7 -/

/-- C7: when caller, receiver and approver all exist, the caller's
record is well-formed, `caller ≠ to`, and the available balance covers
the amount, `tx_send_approve` returns `Ok`, raises the caller's frozen
balance by exactly the amount while leaving the caller's balance and
the receiver's record untouched, and stores the pending approval record
under the transaction hash; no funds are credited to the receiver. -/
theorem C7_escrow_effects {s : State} {caller to_ approver : Addr}
    (amount seed nonce tx_hash : Nat) {wx : Wallet}
    (hne : caller ≠ to_) (hwx : s.wallet caller = some wx)
    (hox : wx.owner = caller)
    (hwy : (s.wallet to_).isSome) (hwa : (s.wallet approver).isSome)
    (hfz : wx.balance_freezed ≤ wx.balance)
    (hbx : wx.balance < U64SIZE)
    (hav : amount ≤ wx.balance - wx.balance_freezed) :
    (tx_send_approve s caller to_ approver amount seed nonce tx_hash).1
        = none ∧
    ((tx_send_approve s caller to_ approver amount seed nonce
        tx_hash).2.wallet caller).map
        (fun w => (w.balance, w.balance_freezed))
      = some (wx.balance, wx.balance_freezed + amount) ∧
    (tx_send_approve s caller to_ approver amount seed nonce
        tx_hash).2.wallet to_ = s.wallet to_ ∧
    mapGet tx_hash (tx_send_approve s caller to_ approver amount seed
        nonce tx_hash).2.approval_transactions
      = some (TxSendApprove.new to_ amount approver nonce) := by
  obtain ⟨wy, hwy'⟩ := Option.isSome_iff_exists.mp hwy
  obtain ⟨wa, hwa'⟩ := Option.isSome_iff_exists.mp hwa
  have h2 : ¬ wsub wx.balance wx.balance_freezed < amount := by
    rw [wsub_eq_of_le hfz hbx]; omega
  have hadd : wadd wx.balance_freezed amount
      = wx.balance_freezed + amount := wadd_eq_of_lt (by omega)
  have hto : to_ ≠ wx.owner := by
    rw [hox]; exact fun he => hne he.symm
  unfold tx_send_approve
  rw [if_neg hne]
  simp only [hwx, hwy', hwa', if_neg h2]
  refine ⟨trivial, ?_, ?_, ?_⟩
  · rw [State.wallet, approve_wallets, freeze_wallets, hox,
      mapGet_mapPut_self]
    simp [Wallet.set_balance_freezed, hadd]
  · rw [State.wallet, approve_wallets, freeze_wallets,
      mapGet_mapPut_ne hto]
    exact hwy'
  · rw [approve_approvals, mapGet_mapPut_self]

/-- Witness for C7: freezing 40 of account 1's 100 for beneficiary 2
under approver 3. -/
theorem C7_witness :
    (tx_send_approve demo3State 1 2 3 40 0 777 13).1 = none ∧
    ((tx_send_approve demo3State 1 2 3 40 0 777 13).2.wallet 1).map
        (fun w => (w.balance, w.balance_freezed)) = some (100, 40) ∧
    (tx_send_approve demo3State 1 2 3 40 0 777 13).2.wallet 2
        = demo3State.wallet 2 ∧
    mapGet 13 (tx_send_approve demo3State 1 2 3 40 0 777
        13).2.approval_transactions
      = some (TxSendApprove.new 2 40 3 777) := by
  have hwx : demo3State.wallet 1
      = some (Wallet.new 1 "a" 100 0 1 (objectHash [10])) := by decide
  have hne : (1 : Addr) ≠ 2 := by decide
  have hox : (Wallet.new 1 "a" 100 0 1 (objectHash [10])).owner = 1 := by
    decide
  have hwy : (demo3State.wallet 2).isSome := by decide
  have hwa : (demo3State.wallet 3).isSome := by decide
  have hfz : (Wallet.new 1 "a" 100 0 1
        (objectHash [10])).balance_freezed
      ≤ (Wallet.new 1 "a" 100 0 1 (objectHash [10])).balance := by decide
  have hbx : (Wallet.new 1 "a" 100 0 1 (objectHash [10])).balance
      < U64SIZE := by decide
  have hav : 40 ≤ (Wallet.new 1 "a" 100 0 1 (objectHash [10])).balance
      - (Wallet.new 1 "a" 100 0 1 (objectHash [10])).balance_freezed :=
    by decide
  have h := C7_escrow_effects 40 0 777 13 hne hwx hox hwy hwa hfz hbx
    hav
  exact ⟨h.1, h.2.1, h.2.2.1, h.2.2.2⟩

/-! ## Claim C8 -/

/-- C8: in every reachable state each account's `history_len` equals
the length of its history log and its `history_hash` equals the digest
of exactly that log; moreover each balance-mutation primitive applied
to a stored wallet appends one entry and installs the incremented
length together with the digest of the post-append log in the same
single put. -/
theorem C8_history_consistency {s : State} (hs : Reachable s) :
    (∀ k w, mapGet k s.wallets = some w →
        w.history_len = (s.history k).length ∧
        w.history_hash = objectHash (s.history k)) ∧
    (∀ (w : Wallet) (amount t : Nat),
        ((s.increase_wallet_balance w amount t).wallet w.owner).map
            (fun v => (v.history_len, v.history_hash))
          = some (w.history_len + 1,
              objectHash (s.history w.owner ++ [t])) ∧
        (s.increase_wallet_balance w amount t).history w.owner
          = s.history w.owner ++ [t]) ∧
    (∀ (w : Wallet) (amount t : Nat),
        ((s.decrease_wallet_balance w amount t).wallet w.owner).map
            (fun v => (v.history_len, v.history_hash))
          = some (w.history_len + 1,
              objectHash (s.history w.owner ++ [t])) ∧
        (s.decrease_wallet_balance w amount t).history w.owner
          = s.history w.owner ++ [t]) ∧
    (∀ (w : Wallet) (amount t : Nat),
        ((s.change_wallet_balance_freezed w amount t).wallet
            w.owner).map (fun v => (v.history_len, v.history_hash))
          = some (w.history_len + 1,
              objectHash (s.history w.owner ++ [t])) ∧
        (s.change_wallet_balance_freezed w amount t).history w.owner
          = s.history w.owner ++ [t]) := by
  refine ⟨fun k w h => ⟨((reachable_wfHist hs).1 k w h).2.1,
      ((reachable_wfHist hs).1 k w h).2.2⟩, ?_, ?_, ?_⟩
  · intro w amount t
    constructor
    · rw [State.wallet, increase_wallets, mapGet_mapPut_self]
      simp [Wallet.set_balance]
    · rw [increase_history, if_pos rfl]
  · intro w amount t
    constructor
    · rw [State.wallet, decrease_wallets, mapGet_mapPut_self]
      simp [Wallet.set_balance]
    · rw [decrease_history, if_pos rfl]
  · intro w amount t
    constructor
    · rw [State.wallet, freeze_wallets, mapGet_mapPut_self]
      simp [Wallet.set_balance_freezed]
    · rw [freeze_history, if_pos rfl]

/-- Witness for C8 at the two-account state. -/
theorem C8_witness :
    (Wallet.new 1 "a" 100 0 1 (objectHash [10])).history_len
        = (demoState.history 1).length ∧
    ((demoState.increase_wallet_balance
        (Wallet.new 1 "a" 100 0 1 (objectHash [10])) 7 99).wallet
        1).map (fun v => (v.history_len, v.history_hash))
      = some (2, objectHash [10, 99]) := by
  have h := C8_history_consistency (reachable_runOps
    [Op.createWalletOp 1 "a" 10, Op.createWalletOp 2 "b" 11])
  refine ⟨(h.1 1 (Wallet.new 1 "a" 100 0 1 (objectHash [10]))
    (by decide)).1, ?_⟩
  have h2 := (h.2.1 (Wallet.new 1 "a" 100 0 1 (objectHash [10]))
    7 99).1
  exact h2.trans (by decide)

/-! ## Claim C10 -/

/-- C10: `tx_send_approve` checks only that the approver's wallet
exists; when the caller and receiver are distinct existing accounts
with sufficient available balance, the escrow also succeeds with the
approver equal to the caller, or equal to the beneficiary. -/
theorem C10_self_approver_allowed {s : State} {caller to_ : Addr}
    (amount seed nonce tx_hash : Nat) {wx : Wallet}
    (hne : caller ≠ to_) (hwx : s.wallet caller = some wx)
    (hwy : (s.wallet to_).isSome)
    (hfz : wx.balance_freezed ≤ wx.balance)
    (hbx : wx.balance < U64SIZE)
    (hav : amount ≤ wx.balance - wx.balance_freezed) :
    (tx_send_approve s caller to_ caller amount seed nonce tx_hash).1
        = none ∧
    (tx_send_approve s caller to_ to_ amount seed nonce tx_hash).1
        = none := by
  obtain ⟨wy, hwy'⟩ := Option.isSome_iff_exists.mp hwy
  have h2 : ¬ wsub wx.balance wx.balance_freezed < amount := by
    rw [wsub_eq_of_le hfz hbx]; omega
  constructor
  · unfold tx_send_approve
    rw [if_neg hne]
    simp only [hwx, hwy', if_neg h2]
  · unfold tx_send_approve
    rw [if_neg hne]
    simp only [hwx, hwy', if_neg h2]

/-- Witness for C10 at the two-account state: approver 1 (the caller)
and approver 2 (the beneficiary) both pass. -/
theorem C10_witness :
    (tx_send_approve demoState 1 2 1 40 0 777 13).1 = none ∧
    (tx_send_approve demoState 1 2 2 40 0 777 13).1 = none := by
  have hwx : demoState.wallet 1
      = some (Wallet.new 1 "a" 100 0 1 (objectHash [10])) := by decide
  have hne : (1 : Addr) ≠ 2 := by decide
  have hwy : (demoState.wallet 2).isSome := by decide
  have hfz : (Wallet.new 1 "a" 100 0 1
        (objectHash [10])).balance_freezed
      ≤ (Wallet.new 1 "a" 100 0 1 (objectHash [10])).balance := by decide
  have hbx : (Wallet.new 1 "a" 100 0 1 (objectHash [10])).balance
      < U64SIZE := by decide
  have hav : 40 ≤ (Wallet.new 1 "a" 100 0 1 (objectHash [10])).balance
      - (Wallet.new 1 "a" 100 0 1 (objectHash [10])).balance_freezed :=
    by decide
  exact C10_self_approver_allowed 40 0 777 13 hne hwx hwy hfz hbx hav

end CryptoLedger
